import Mathlib

attribute [local semireducible] Rat.add Rat.mul Rat.sub Rat.inv Rat.ofScientific

/-! Verification development for the bvh_distance_queries repository.
The visible source of the repository is the package initializer
bvh_distance_queries/__init__.py; the BVH query engine it re-exports is
absent from the visible sources, so the engine (primitive store, hierarchy
builder, traversal engine, batch orchestrator) is modelled from the
specification, as noted on each definition.  The initializer itself is
embedded directly from the source file at the end of the definitions. -/

/-- Modelled from the spec: a 3D point with rational coordinates standing in
for the floating point vertex positions of the absent engine. -/
structure Pt where
  x : ℚ
  y : ℚ
  z : ℚ
deriving DecidableEq, Repr

/-- Modelled from the spec: a triangle primitive holds three vertex positions. -/
structure Tri where
  a : Pt
  b : Pt
  c : Pt
deriving DecidableEq, Repr

/-- Modelled from the spec: axis aligned bounding box given by min and max corners. -/
structure BBox where
  lo : Pt
  hi : Pt
deriving DecidableEq, Repr

def padd (p q : Pt) : Pt := ⟨p.x + q.x, p.y + q.y, p.z + q.z⟩

def psub (p q : Pt) : Pt := ⟨p.x - q.x, p.y - q.y, p.z - q.z⟩

def smul (c : ℚ) (p : Pt) : Pt := ⟨c * p.x, c * p.y, c * p.z⟩

def dot (p q : Pt) : ℚ := p.x * q.x + p.y * q.y + p.z * q.z

def cross (p q : Pt) : Pt :=
  ⟨p.y * q.z - p.z * q.y, p.z * q.x - p.x * q.z, p.x * q.y - p.y * q.x⟩

/-- Squared euclidean distance between two points. -/
def sqDist (p q : Pt) : ℚ :=
  (q.x - p.x) * (q.x - p.x) + (q.y - p.y) * (q.y - p.y) + (q.z - p.z) * (q.z - p.z)

def pmin (p q : Pt) : Pt := ⟨min p.x q.x, min p.y q.y, min p.z q.z⟩

def pmax (p q : Pt) : Pt := ⟨max p.x q.x, max p.y q.y, max p.z q.z⟩

/-- Modelled from the spec: the derived axis aligned bounding box of a triangle. -/
def triBBox (t : Tri) : BBox := ⟨pmin (pmin t.a t.b) t.c, pmax (pmax t.a t.b) t.c⟩

/-- Modelled from the spec: the union of two bounding boxes. -/
def bboxUnion (u v : BBox) : BBox := ⟨pmin u.lo v.lo, pmax u.hi v.hi⟩

/-- Modelled from the spec: the centroid of a triangle primitive. -/
def centroidPt (t : Tri) : Pt := smul (1/3) (padd (padd t.a t.b) t.c)

/-- Membership of a point in a bounding box, componentwise. -/
def memBBox (q : Pt) (b : BBox) : Prop :=
  b.lo.x ≤ q.x ∧ q.x ≤ b.hi.x ∧ b.lo.y ≤ q.y ∧ q.y ≤ b.hi.y ∧ b.lo.z ≤ q.z ∧ q.z ≤ b.hi.z

/-- Containment of bounding boxes: u is contained in v. -/
def bsub (u v : BBox) : Prop :=
  v.lo.x ≤ u.lo.x ∧ u.hi.x ≤ v.hi.x ∧ v.lo.y ≤ u.lo.y ∧ u.hi.y ≤ v.hi.y ∧
    v.lo.z ≤ u.lo.z ∧ u.hi.z ≤ v.hi.z

/-- Well formed bounding box: min corner below max corner, componentwise. -/
def wfBox (b : BBox) : Prop := b.lo.x ≤ b.hi.x ∧ b.lo.y ≤ b.hi.y ∧ b.lo.z ≤ b.hi.z

/-- Distance from a coordinate to an interval, zero inside the interval. -/
def axGap (px lo hi : ℚ) : ℚ := max (lo - px) (max 0 (px - hi))

/-- Modelled from the spec: squared lower bound distance from a query point to a
bounding box, used by the traversal prune test. -/
def sqDistToBBox (p : Pt) (b : BBox) : ℚ :=
  axGap p.x b.lo.x b.hi.x * axGap p.x b.lo.x b.hi.x +
    axGap p.y b.lo.y b.hi.y * axGap p.y b.lo.y b.hi.y +
    axGap p.z b.lo.z b.hi.z * axGap p.z b.lo.z b.hi.z

theorem bsub_refl (b : BBox) : bsub b b := by
  unfold bsub; exact ⟨le_refl _, le_refl _, le_refl _, le_refl _, le_refl _, le_refl _⟩

theorem bsub_trans {u v w : BBox} (h1 : bsub u v) (h2 : bsub v w) : bsub u w := by
  unfold bsub at *
  exact ⟨le_trans h2.1 h1.1, le_trans h1.2.1 h2.2.1, le_trans h2.2.2.1 h1.2.2.1,
    le_trans h1.2.2.2.1 h2.2.2.2.1, le_trans h2.2.2.2.2.1 h1.2.2.2.2.1,
    le_trans h1.2.2.2.2.2 h2.2.2.2.2.2⟩

theorem memBBox_of_bsub {q : Pt} {u v : BBox} (hq : memBBox q u) (h : bsub u v) :
    memBBox q v := by
  unfold memBBox bsub at *
  exact ⟨le_trans h.1 hq.1, le_trans hq.2.1 h.2.1, le_trans h.2.2.1 hq.2.2.1,
    le_trans hq.2.2.2.1 h.2.2.2.1, le_trans h.2.2.2.2.1 hq.2.2.2.2.1,
    le_trans hq.2.2.2.2.2 h.2.2.2.2.2⟩

theorem axGap_sq_le (px : ℚ) {lo hi qx : ℚ} (h1 : lo ≤ qx) (h2 : qx ≤ hi) :
    axGap px lo hi * axGap px lo hi ≤ (qx - px) * (qx - px) := by
  unfold axGap
  rcases le_total px lo with hc | hc
  · have hmax : max (lo - px) (max 0 (px - hi)) = lo - px := by
      have hz : (0 : ℚ) ≤ lo - px := by linarith
      have hh : px - hi ≤ lo - px := by linarith
      have : max 0 (px - hi) ≤ lo - px := max_le hz hh
      exact max_eq_left this
    rw [hmax]
    nlinarith
  · rcases le_total px hi with hd | hd
    · have hmax : max (lo - px) (max 0 (px - hi)) = 0 := by
        have h3 : lo - px ≤ 0 := by linarith
        have h4 : px - hi ≤ 0 := by linarith
        rw [max_eq_left h4, max_eq_right h3]
      rw [hmax]
      nlinarith
    · have hmax : max (lo - px) (max 0 (px - hi)) = px - hi := by
        have h3 : lo - px ≤ px - hi := by linarith
        have h4 : (0:ℚ) ≤ px - hi := by linarith
        rw [max_eq_right h4, max_eq_right h3]
      rw [hmax]
      nlinarith

theorem sqDistToBBox_le_sqDist {p q : Pt} {b : BBox} (hq : memBBox q b) :
    sqDistToBBox p b ≤ sqDist p q := by
  unfold sqDistToBBox sqDist
  unfold memBBox at hq
  have hx := axGap_sq_le p.x hq.1 hq.2.1
  have hy := axGap_sq_le p.y hq.2.2.1 hq.2.2.2.1
  have hz := axGap_sq_le p.z hq.2.2.2.2.1 hq.2.2.2.2.2
  linarith

theorem wf_triBBox (t : Tri) : wfBox (triBBox t) := by
  unfold wfBox triBBox pmin pmax
  refine ⟨?_, ?_, ?_⟩ <;>
    exact le_trans (le_trans (min_le_left _ _) (min_le_left _ _))
      (le_trans (le_max_left _ _) (le_max_left _ _))

theorem wf_bboxUnion {u v : BBox} (hu : wfBox u) (hv : wfBox v) :
    wfBox (bboxUnion u v) := by
  unfold wfBox bboxUnion pmin pmax at *
  exact ⟨le_trans (min_le_left _ _) (le_trans hu.1 (le_max_left _ _)),
    le_trans (min_le_left _ _) (le_trans hu.2.1 (le_max_left _ _)),
    le_trans (min_le_left _ _) (le_trans hu.2.2 (le_max_left _ _))⟩

theorem bsub_bboxUnion_left (u v : BBox) : bsub u (bboxUnion u v) := by
  unfold bsub bboxUnion pmin pmax
  exact ⟨min_le_left _ _, le_max_left _ _, min_le_left _ _, le_max_left _ _,
    min_le_left _ _, le_max_left _ _⟩

theorem bsub_bboxUnion_right (u v : BBox) : bsub v (bboxUnion u v) := by
  unfold bsub bboxUnion pmin pmax
  exact ⟨min_le_right _ _, le_max_right _ _, min_le_right _ _, le_max_right _ _,
    min_le_right _ _, le_max_right _ _⟩

theorem bboxUnion_bsub {u v w : BBox} (hu : bsub u w) (hv : bsub v w) :
    bsub (bboxUnion u v) w := by
  unfold bsub bboxUnion pmin pmax at *
  exact ⟨le_min hu.1 hv.1, max_le hu.2.1 hv.2.1, le_min hu.2.2.1 hv.2.2.1,
    max_le hu.2.2.2.1 hv.2.2.2.1, le_min hu.2.2.2.2.1 hv.2.2.2.2.1,
    max_le hu.2.2.2.2.2 hv.2.2.2.2.2⟩

/-- Clamp a parameter to the unit interval. -/
def clamp01 (t : ℚ) : ℚ := max 0 (min 1 t)

/-- Modelled from the spec: closest point to p on the segment from a to b, one of
the edge and vertex closest point sub-routines of the point to triangle distance. -/
def closestOnSegment (p a b : Pt) : Pt :=
  padd a (smul (clamp01 (if dot (psub b a) (psub b a) = 0 then 0
    else dot (psub p a) (psub b a) / dot (psub b a) (psub b a))) (psub b a))

/-- Denominator of the barycentric solution for the projection of a point onto
the plane of a triangle; positive exactly for non degenerate triangles. -/
def projDen (t : Tri) : ℚ :=
  dot (psub t.b t.a) (psub t.b t.a) * dot (psub t.c t.a) (psub t.c t.a) -
    dot (psub t.b t.a) (psub t.c t.a) * dot (psub t.b t.a) (psub t.c t.a)

/-- Barycentric coordinate along edge ab of the projection of p onto the plane of t. -/
def projV (p : Pt) (t : Tri) : ℚ :=
  (dot (psub t.c t.a) (psub t.c t.a) * dot (psub p t.a) (psub t.b t.a) -
    dot (psub t.b t.a) (psub t.c t.a) * dot (psub p t.a) (psub t.c t.a)) / projDen t

/-- Barycentric coordinate along edge ac of the projection of p onto the plane of t. -/
def projW (p : Pt) (t : Tri) : ℚ :=
  (dot (psub t.b t.a) (psub t.b t.a) * dot (psub p t.a) (psub t.c t.a) -
    dot (psub t.b t.a) (psub t.c t.a) * dot (psub p t.a) (psub t.b t.a)) / projDen t

/-- Modelled from the spec: point to triangle closest point, computed by projecting
the point onto the plane of the triangle and, when the projection falls outside the
triangle (or the triangle is degenerate), clamping to the triangle through the edge
and vertex closest point sub-routines. -/
def closestPointOnTriangle (p : Pt) (t : Tri) : Pt :=
  if 0 < projDen t ∧ 0 ≤ projV p t ∧ 0 ≤ projW p t ∧ projV p t + projW p t ≤ 1 then
    padd t.a (padd (smul (projV p t) (psub t.b t.a)) (smul (projW p t) (psub t.c t.a)))
  else
    if sqDist p (closestOnSegment p t.a t.b) ≤ sqDist p (closestOnSegment p t.b t.c) ∧
        sqDist p (closestOnSegment p t.a t.b) ≤ sqDist p (closestOnSegment p t.c t.a) then
      closestOnSegment p t.a t.b
    else
      if sqDist p (closestOnSegment p t.b t.c) ≤ sqDist p (closestOnSegment p t.c t.a) then
        closestOnSegment p t.b t.c
      else closestOnSegment p t.c t.a

/-- Modelled from the spec: exact squared point to triangle distance, the numeric
distance used by nearest point queries. -/
def sqDistPointTri (p : Pt) (t : Tri) : ℚ := sqDist p (closestPointOnTriangle p t)

theorem convex_coord (va vb vc u v : ℚ) (hu : 0 ≤ u) (hv : 0 ≤ v) (huv : u + v ≤ 1) :
    min (min va vb) vc ≤ va + (u * (vb - va) + v * (vc - va)) ∧
      va + (u * (vb - va) + v * (vc - va)) ≤ max (max va vb) vc := by
  have h1 : min (min va vb) vc ≤ va := le_trans (min_le_left _ _) (min_le_left _ _)
  have h2 : min (min va vb) vc ≤ vb := le_trans (min_le_left _ _) (min_le_right _ _)
  have h3 : min (min va vb) vc ≤ vc := min_le_right _ _
  have g1 : va ≤ max (max va vb) vc := le_trans (le_max_left _ _) (le_max_left _ _)
  have g2 : vb ≤ max (max va vb) vc := le_trans (le_max_right _ _) (le_max_left _ _)
  have g3 : vc ≤ max (max va vb) vc := le_max_right _ _
  constructor
  · nlinarith [mul_nonneg hu (sub_nonneg.mpr h2), mul_nonneg hv (sub_nonneg.mpr h3),
      mul_nonneg (by linarith : (0:ℚ) ≤ 1 - u - v) (sub_nonneg.mpr h1)]
  · nlinarith [mul_nonneg hu (sub_nonneg.mpr g2), mul_nonneg hv (sub_nonneg.mpr g3),
      mul_nonneg (by linarith : (0:ℚ) ≤ 1 - u - v) (sub_nonneg.mpr g1)]

theorem convex_mem_triBBox (t : Tri) (u v : ℚ) (hu : 0 ≤ u) (hv : 0 ≤ v)
    (huv : u + v ≤ 1) :
    memBBox (padd t.a (padd (smul u (psub t.b t.a)) (smul v (psub t.c t.a))))
      (triBBox t) := by
  have hx := convex_coord t.a.x t.b.x t.c.x u v hu hv huv
  have hy := convex_coord t.a.y t.b.y t.c.y u v hu hv huv
  have hz := convex_coord t.a.z t.b.z t.c.z u v hu hv huv
  unfold memBBox triBBox pmin pmax padd smul psub
  dsimp only
  exact ⟨hx.1, hx.2, hy.1, hy.2, hz.1, hz.2⟩

theorem pt_ext {p q : Pt} (hx : p.x = q.x) (hy : p.y = q.y) (hz : p.z = q.z) :
    p = q := by
  cases p; cases q; simp_all

theorem clamp01_mem (t : ℚ) : 0 ≤ clamp01 t ∧ clamp01 t ≤ 1 := by
  unfold clamp01
  constructor
  · exact le_max_left _ _
  · exact max_le (by norm_num) (min_le_left _ _)

theorem closestOnSegment_convex (p a b : Pt) :
    ∃ s, 0 ≤ s ∧ s ≤ 1 ∧ closestOnSegment p a b = padd a (smul s (psub b a)) := by
  unfold closestOnSegment
  exact ⟨_, (clamp01_mem _).1, (clamp01_mem _).2, rfl⟩

theorem segment_ab_mem (p : Pt) (t : Tri) :
    memBBox (closestOnSegment p t.a t.b) (triBBox t) := by
  obtain ⟨s, hs0, hs1, heq⟩ := closestOnSegment_convex p t.a t.b
  rw [heq]
  have h := convex_mem_triBBox t s 0 hs0 (le_refl 0) (by linarith)
  have : padd t.a (smul s (psub t.b t.a)) =
      padd t.a (padd (smul s (psub t.b t.a)) (smul 0 (psub t.c t.a))) := by
    apply pt_ext <;> (unfold padd smul psub; dsimp only; ring)
  rw [this]
  exact h

theorem segment_bc_mem (p : Pt) (t : Tri) :
    memBBox (closestOnSegment p t.b t.c) (triBBox t) := by
  obtain ⟨s, hs0, hs1, heq⟩ := closestOnSegment_convex p t.b t.c
  rw [heq]
  have h := convex_mem_triBBox t (1 - s) s (by linarith) hs0 (by linarith)
  have : padd t.b (smul s (psub t.c t.b)) =
      padd t.a (padd (smul (1 - s) (psub t.b t.a)) (smul s (psub t.c t.a))) := by
    apply pt_ext <;> (unfold padd smul psub; dsimp only; ring)
  rw [this]
  exact h

theorem segment_ca_mem (p : Pt) (t : Tri) :
    memBBox (closestOnSegment p t.c t.a) (triBBox t) := by
  obtain ⟨s, hs0, hs1, heq⟩ := closestOnSegment_convex p t.c t.a
  rw [heq]
  have h := convex_mem_triBBox t 0 (1 - s) (le_refl 0) (by linarith) (by linarith)
  have : padd t.c (smul s (psub t.a t.c)) =
      padd t.a (padd (smul 0 (psub t.b t.a)) (smul (1 - s) (psub t.c t.a))) := by
    apply pt_ext <;> (unfold padd smul psub; dsimp only; ring)
  rw [this]
  exact h

theorem closestPointOnTriangle_mem (p : Pt) (t : Tri) :
    memBBox (closestPointOnTriangle p t) (triBBox t) := by
  unfold closestPointOnTriangle
  split
  · next h => exact convex_mem_triBBox t _ _ h.2.1 h.2.2.1 h.2.2.2
  · split
    · exact segment_ab_mem p t
    · split
      · exact segment_bc_mem p t
      · exact segment_ca_mem p t

theorem sqDistToBBox_le_sqDistPointTri {p : Pt} {t : Tri} {bx : BBox}
    (h : bsub (triBBox t) bx) : sqDistToBBox p bx ≤ sqDistPointTri p t := by
  unfold sqDistPointTri
  exact sqDistToBBox_le_sqDist (memBBox_of_bsub (closestPointOnTriangle_mem p t) h)

/-- Determinant of the Moller Trumbore linear system for a ray and a triangle. -/
def mtDet (o d : Pt) (t : Tri) : ℚ := dot (psub t.b t.a) (cross d (psub t.c t.a))

/-- First barycentric coordinate of the Moller Trumbore solution. -/
def mtU (o d : Pt) (t : Tri) : ℚ :=
  dot (psub o t.a) (cross d (psub t.c t.a)) / mtDet o d t

/-- Second barycentric coordinate of the Moller Trumbore solution. -/
def mtV (o d : Pt) (t : Tri) : ℚ :=
  dot d (cross (psub o t.a) (psub t.b t.a)) / mtDet o d t

/-- Ray parameter of the Moller Trumbore solution. -/
def mtT (o d : Pt) (t : Tri) : ℚ :=
  dot (psub t.c t.a) (cross (psub o t.a) (psub t.b t.a)) / mtDet o d t

/-- Modelled from the spec: Moller Trumbore ray triangle intersection; returns the
parametric distance when the ray crosses the triangle at parameter t greater or
equal to zero, and none otherwise (parallel or outside). -/
def rayTri (o d : Pt) (t : Tri) : Option ℚ :=
  if mtDet o d t = 0 then none
  else
    if 0 ≤ mtU o d t ∧ 0 ≤ mtV o d t ∧ mtU o d t + mtV o d t ≤ 1 ∧ 0 ≤ mtT o d t then
      some (mtT o d t)
    else none

theorem mt_solution {o d : Pt} {t : Tri} (hdet : mtDet o d t ≠ 0) :
    padd o (smul (mtT o d t) d) =
      padd t.a (padd (smul (mtU o d t) (psub t.b t.a))
        (smul (mtV o d t) (psub t.c t.a))) := by
  unfold mtDet at hdet
  unfold mtT mtU mtV mtDet
  apply pt_ext <;>
    (unfold padd smul psub dot cross at *; dsimp only at *; field_simp; ring)

theorem rayTri_some {o d : Pt} {t : Tri} {tt : ℚ} (h : rayTri o d t = some tt) :
    tt = mtT o d t ∧ mtDet o d t ≠ 0 ∧ 0 ≤ mtU o d t ∧ 0 ≤ mtV o d t ∧
      mtU o d t + mtV o d t ≤ 1 ∧ 0 ≤ tt := by
  unfold rayTri at h
  split at h
  · exact absurd h (by simp)
  · next hdet =>
    split at h
    · next hg =>
      have : tt = mtT o d t := by
        have := h
        simp at this
        exact this.symm
      subst this
      exact ⟨rfl, hdet, hg.1, hg.2.1, hg.2.2.1, hg.2.2.2⟩
    · exact absurd h (by simp)

theorem rayTri_hitpoint_mem {o d : Pt} {t : Tri} {tt : ℚ}
    (h : rayTri o d t = some tt) : memBBox (padd o (smul tt d)) (triBBox t) := by
  obtain ⟨htt, hdet, hu, hv, huv, _⟩ := rayTri_some h
  rw [htt, mt_solution hdet]
  exact convex_mem_triBBox t _ _ hu hv huv

/-- Modelled from the spec: one axis of the slab test; intersects the running
parameter interval with the entry and exit parameters of the slab on this axis,
or keeps it when the ray is parallel to the axis and the origin is inside. -/
def slabAxis (ox dx lo hi : ℚ) (iv : ℚ × Option ℚ) : Option (ℚ × Option ℚ) :=
  if dx = 0 then (if lo ≤ ox ∧ ox ≤ hi then some iv else none)
  else
    some (max iv.1 (min ((lo - ox) / dx) ((hi - ox) / dx)),
      some (match iv.2 with
        | none => max ((lo - ox) / dx) ((hi - ox) / dx)
        | some u => min u (max ((lo - ox) / dx) ((hi - ox) / dx))))

/-- Nonemptiness of the parameter interval produced by the slab test. -/
def ivOk : Option (ℚ × Option ℚ) → Bool
  | none => false
  | some (_, none) => true
  | some (l, some u) => decide (l ≤ u)

/-- Modelled from the spec: ray box slab test; computes the entry and exit
parameter interval per axis starting from zero up to the current best parameter,
and reports whether the intersection of the intervals is nonempty. -/
def slabOk (o d : Pt) (b : BBox) (ub : Option ℚ) : Bool :=
  ivOk (((slabAxis o.x d.x b.lo.x b.hi.x (0, ub)).bind
    (slabAxis o.y d.y b.lo.y b.hi.y)).bind (slabAxis o.z d.z b.lo.z b.hi.z))

/-- Membership of a parameter in a slab interval. -/
def ivMemP (t : ℚ) (iv : ℚ × Option ℚ) : Prop :=
  iv.1 ≤ t ∧ ∀ u, iv.2 = some u → t ≤ u

theorem slabAxis_sound (ox dx : ℚ) {lo hi t : ℚ} {iv : ℚ × Option ℚ}
    (hlo : lo ≤ ox + t * dx) (hhi : ox + t * dx ≤ hi) (hmem : ivMemP t iv) :
    ∃ iv2, slabAxis ox dx lo hi iv = some iv2 ∧ ivMemP t iv2 := by
  unfold slabAxis
  split
  · next hdx =>
    subst hdx
    have hox : lo ≤ ox ∧ ox ≤ hi := by constructor <;> linarith
    rw [if_pos hox]
    exact ⟨iv, rfl, hmem⟩
  · next hdx =>
    refine ⟨_, rfl, ?_⟩
    have hbound : min ((lo - ox) / dx) ((hi - ox) / dx) ≤ t ∧
        t ≤ max ((lo - ox) / dx) ((hi - ox) / dx) := by
      rcases lt_or_gt_of_ne hdx with hneg | hpos
      · have h1 : t ≤ (lo - ox) / dx := by
          rw [le_div_iff_of_neg hneg]; linarith
        have h2 : (hi - ox) / dx ≤ t := by
          rw [div_le_iff_of_neg hneg]; linarith
        exact ⟨le_trans (min_le_right _ _) h2, le_trans h1 (le_max_left _ _)⟩
      · have h1 : (lo - ox) / dx ≤ t := by
          rw [div_le_iff hpos]; linarith
        have h2 : t ≤ (hi - ox) / dx := by
          rw [le_div_iff hpos]; linarith
        exact ⟨le_trans (min_le_left _ _) h1, le_trans h2 (le_max_right _ _)⟩
    constructor
    · exact max_le hmem.1 hbound.1
    · intro u hu
      dsimp only at hu
      injection hu with hu
      subst hu
      cases hiv : iv.2 with
      | none => simp only [hiv]; exact hbound.2
      | some u2 =>
        simp only [hiv]
        exact le_min (hmem.2 u2 hiv) hbound.2

theorem slabOk_true {o d : Pt} {b : BBox} (ub : Option ℚ) {t : ℚ}
    (hmem : memBBox (padd o (smul t d)) b) (ht0 : 0 ≤ t)
    (hub : ∀ u, ub = some u → t ≤ u) : slabOk o d b ub = true := by
  unfold memBBox padd smul at hmem
  dsimp only at hmem
  have h0 : ivMemP t (0, ub) := ⟨ht0, hub⟩
  obtain ⟨iv1, he1, hm1⟩ := slabAxis_sound o.x d.x
    (by linarith [hmem.1] : b.lo.x ≤ o.x + t * d.x)
    (by linarith [hmem.2.1] : o.x + t * d.x ≤ b.hi.x) h0
  obtain ⟨iv2, he2, hm2⟩ := slabAxis_sound o.y d.y
    (by linarith [hmem.2.2.1] : b.lo.y ≤ o.y + t * d.y)
    (by linarith [hmem.2.2.2.1] : o.y + t * d.y ≤ b.hi.y) hm1
  obtain ⟨iv3, he3, hm3⟩ := slabAxis_sound o.z d.z
    (by linarith [hmem.2.2.2.2.1] : b.lo.z ≤ o.z + t * d.z)
    (by linarith [hmem.2.2.2.2.2] : o.z + t * d.z ≤ b.hi.z) hm2
  unfold slabOk
  rw [he1]
  simp only [Option.some_bind]
  rw [he2]
  simp only [Option.some_bind]
  rw [he3]
  unfold ivOk
  rcases hiv : iv3.2 with _ | u
  · rcases iv3 with ⟨l, uu⟩
    simp only at hiv
    subst hiv
    rfl
  · rcases iv3 with ⟨l, uu⟩
    simp only at hiv
    subst hiv
    have := hm3.2 u rfl
    have hl := hm3.1
    simp only
    exact decide_eq_true (by dsimp only at hl ⊢; linarith)

/-- Modelled from the spec: a BVH node is either a leaf holding one primitive
together with its original index (leaf threshold one; the indices realize the
permutation back to original primitive order) or an internal node with a bounding
box and two children.  The flat array layout of the spec is recovered by the
preorder listing subtreesOf, whose head (index zero) is the root. -/
inductive BVHTree where
  | leaf (box : BBox) (idx : ℕ) (tri : Tri)
  | node (box : BBox) (l : BVHTree) (r : BVHTree)
deriving DecidableEq, Repr

def boxOf : BVHTree → BBox
  | .leaf b _ _ => b
  | .node b _ _ => b

def tsize : BVHTree → ℕ
  | .leaf _ _ _ => 1
  | .node _ l r => tsize l + tsize r + 1

/-- Leaf referenced primitives of a tree, with original indices, in traversal order. -/
def leavesOf : BVHTree → List (ℕ × Tri)
  | .leaf _ i t => [(i, t)]
  | .node _ l r => leavesOf l ++ leavesOf r

/-- Preorder listing of all nodes of the tree; the root is at index zero. -/
def subtreesOf : BVHTree → List BVHTree
  | .leaf b i t => [.leaf b i t]
  | .node b l r => .node b l r :: (subtreesOf l ++ subtreesOf r)

def internalCount : BVHTree → ℕ
  | .leaf _ _ _ => 0
  | .node _ l r => internalCount l + internalCount r + 1

theorem tsize_pos (T : BVHTree) : 1 ≤ tsize T := by
  cases T <;> simp [tsize]

/-- Coordinate of a point along a numbered axis. -/
def axCoord (ax : ℕ) (p : Pt) : ℚ := if ax = 0 then p.x else if ax = 1 then p.y else p.z

/-- Comparison of two primitives by centroid along an axis. -/
def centLe (ax : ℕ) (u v : ℕ × Tri) : Bool :=
  decide (axCoord ax (centroidPt u.2) ≤ axCoord ax (centroidPt v.2))

/-- Insertion into a sorted list, the step of the centroid sort. -/
def insSorted (le : (ℕ × Tri) → (ℕ × Tri) → Bool) (a : ℕ × Tri) :
    List (ℕ × Tri) → List (ℕ × Tri)
  | [] => [a]
  | b :: bs => if le a b then a :: b :: bs else b :: insSorted le a bs

/-- Insertion sort of primitives by centroid key. -/
def sortByKey (le : (ℕ × Tri) → (ℕ × Tri) → Bool) :
    List (ℕ × Tri) → List (ℕ × Tri)
  | [] => []
  | a :: as => insSorted le a (sortByKey le as)

/-- Modelled from the spec: the axis of greatest extent of a bounding box. -/
def longAxis (b : BBox) : ℕ :=
  if b.hi.y - b.lo.y ≤ b.hi.x - b.lo.x ∧ b.hi.z - b.lo.z ≤ b.hi.x - b.lo.x then 0
  else if b.hi.z - b.lo.z ≤ b.hi.y - b.lo.y then 1 else 2

/-- Bounding box of a nonempty range of primitives. -/
def bigBBox (x : ℕ × Tri) (xs : List (ℕ × Tri)) : BBox :=
  xs.foldl (fun b y => bboxUnion b (triBBox y.2)) (triBBox x.2)

/-- Primitives of a range sorted by centroid along the axis of greatest extent. -/
def sortAxis (x y : ℕ × Tri) (ys : List (ℕ × Tri)) : List (ℕ × Tri) :=
  sortByKey (centLe (longAxis (bigBBox x (y :: ys)))) (x :: y :: ys)

/-- Modelled from the spec: index at which a sorted range of two or more
primitives is split: the count of centroids at or below the median centroid
value when that separates the range, and the even index count fallback (half the
range) when the median partition fails to separate the primitives. -/
def splitAxisK (x y : ℕ × Tri) (ys : List (ℕ × Tri)) : ℕ :=
  let ax := longAxis (bigBBox x (y :: ys))
  let sorted := sortAxis x y ys
  let n := ys.length + 2
  let m := axCoord ax (centroidPt ((sorted.getD (n / 2) x).2))
  let kv := (sorted.filter (fun u => decide (axCoord ax (centroidPt u.2) ≤ m))).length
  if 1 ≤ kv ∧ kv < n then kv else n / 2

/-- Modelled from the spec: split a range of two or more primitives into two
nonempty contiguous halves of the centroid sorted range. -/
def splitStep (x y : ℕ × Tri) (ys : List (ℕ × Tri)) :
    ((ℕ × Tri) × List (ℕ × Tri)) × ((ℕ × Tri) × List (ℕ × Tri)) :=
  match (sortAxis x y ys).take (splitAxisK x y ys),
      (sortAxis x y ys).drop (splitAxisK x y ys) with
  | lh :: lt, rh :: rt => ((lh, lt), (rh, rt))
  | _, _ => ((x, []), (y, ys))

theorem insSorted_perm (le : (ℕ × Tri) → (ℕ × Tri) → Bool) (a : ℕ × Tri) :
    ∀ l, (insSorted le a l).Perm (a :: l) := by
  intro l
  induction l with
  | nil => exact List.Perm.refl _
  | cons b bs ih =>
    unfold insSorted
    split
    · exact List.Perm.refl _
    · exact List.Perm.trans (List.Perm.cons b ih) (List.Perm.swap a b bs)

theorem sortByKey_perm (le : (ℕ × Tri) → (ℕ × Tri) → Bool) :
    ∀ l, (sortByKey le l).Perm l := by
  intro l
  induction l with
  | nil => exact List.Perm.refl _
  | cons a as ih =>
    unfold sortByKey
    exact List.Perm.trans (insSorted_perm le a _) (List.Perm.cons a ih)

theorem sortAxis_perm (x y : ℕ × Tri) (ys : List (ℕ × Tri)) :
    (sortAxis x y ys).Perm (x :: y :: ys) := sortByKey_perm _ _

theorem sortAxis_length (x y : ℕ × Tri) (ys : List (ℕ × Tri)) :
    (sortAxis x y ys).length = ys.length + 2 := by
  have := (sortAxis_perm x y ys).length_eq
  simpa using this

theorem splitAxisK_bounds (x y : ℕ × Tri) (ys : List (ℕ × Tri)) :
    1 ≤ splitAxisK x y ys ∧ splitAxisK x y ys < ys.length + 2 := by
  simp only [splitAxisK]
  split
  · next h => exact h
  · next h => omega

theorem splitStep_perm (x y : ℕ × Tri) (ys : List (ℕ × Tri)) :
    (((splitStep x y ys).1.1 :: (splitStep x y ys).1.2) ++
      ((splitStep x y ys).2.1 :: (splitStep x y ys).2.2)).Perm (x :: y :: ys) := by
  unfold splitStep
  split
  · next lh lt rh rt h1 h2 =>
    dsimp only
    rw [← h1, ← h2, List.take_append_drop]
    exact sortAxis_perm x y ys
  · dsimp only
    exact List.Perm.refl _

theorem splitStep_left_le (x y : ℕ × Tri) (ys : List (ℕ × Tri)) :
    (splitStep x y ys).1.2.length ≤ ys.length := by
  unfold splitStep
  split
  · next lh lt rh rt h1 h2 =>
    dsimp only
    have hb := splitAxisK_bounds x y ys
    have h3 := congrArg List.length h1
    rw [List.length_take, sortAxis_length] at h3
    simp only [List.length_cons] at h3
    omega
  · dsimp only
    exact Nat.zero_le _

theorem splitStep_right_le (x y : ℕ × Tri) (ys : List (ℕ × Tri)) :
    (splitStep x y ys).2.2.length ≤ ys.length := by
  unfold splitStep
  split
  · next lh lt rh rt h1 h2 =>
    dsimp only
    have hb := splitAxisK_bounds x y ys
    have h3 := congrArg List.length h2
    rw [List.length_drop, sortAxis_length] at h3
    simp only [List.length_cons] at h3
    omega
  · dsimp only
    exact le_refl _

/-- Modelled from the spec: recursive median split builder over a nonempty range.
The first argument is structural fuel equal to the length of the tail of the
range, supplied by the wrapper buildT; a range of size one emits a leaf, a larger
range is partitioned by splitStep and both halves are built recursively. -/
def buildN : ℕ → (ℕ × Tri) → List (ℕ × Tri) → BVHTree
  | _, x, [] => .leaf (triBBox x.2) x.1 x.2
  | 0, x, _ :: _ => .leaf (triBBox x.2) x.1 x.2
  | n + 1, x, y :: ys =>
    .node (bigBBox x (y :: ys))
      (buildN n (splitStep x y ys).1.1 (splitStep x y ys).1.2)
      (buildN n (splitStep x y ys).2.1 (splitStep x y ys).2.2)

/-- Modelled from the spec: build a BVH over a nonempty range of indexed primitives. -/
def buildT (x : ℕ × Tri) (xs : List (ℕ × Tri)) : BVHTree := buildN xs.length x xs

theorem wf_foldl_union (xs : List (ℕ × Tri)) :
    ∀ acc, wfBox acc → wfBox (xs.foldl (fun b y => bboxUnion b (triBBox y.2)) acc) := by
  induction xs with
  | nil => intro acc h; exact h
  | cons z zs ih =>
    intro acc h
    exact ih _ (wf_bboxUnion h (wf_triBBox z.2))

theorem wf_bigBBox (x : ℕ × Tri) (xs : List (ℕ × Tri)) : wfBox (bigBBox x xs) :=
  wf_foldl_union xs _ (wf_triBBox x.2)

theorem bsub_foldl_union (xs : List (ℕ × Tri)) :
    ∀ acc, bsub acc (xs.foldl (fun b y => bboxUnion b (triBBox y.2)) acc) := by
  induction xs with
  | nil => intro acc; exact bsub_refl acc
  | cons z zs ih =>
    intro acc
    exact bsub_trans (bsub_bboxUnion_left acc (triBBox z.2)) (ih _)

theorem mem_bsub_foldl_union (xs : List (ℕ × Tri)) :
    ∀ acc z, z ∈ xs →
      bsub (triBBox z.2) (xs.foldl (fun b y => bboxUnion b (triBBox y.2)) acc) := by
  induction xs with
  | nil => intro acc z hz; exact absurd hz (List.not_mem_nil z)
  | cons w ws ih =>
    intro acc z hz
    rcases List.mem_cons.mp hz with h | h
    · subst h
      exact bsub_trans (bsub_bboxUnion_right acc (triBBox z.2)) (bsub_foldl_union ws _)
    · exact ih _ z h

theorem mem_bsub_bigBBox (x : ℕ × Tri) (xs : List (ℕ × Tri)) :
    ∀ z ∈ x :: xs, bsub (triBBox z.2) (bigBBox x xs) := by
  intro z hz
  rcases List.mem_cons.mp hz with h | h
  · subst h
    exact bsub_foldl_union xs _
  · exact mem_bsub_foldl_union xs _ z h

theorem foldl_union_bsub (xs : List (ℕ × Tri)) {B : BBox} :
    ∀ acc, bsub acc B → (∀ z ∈ xs, bsub (triBBox z.2) B) →
      bsub (xs.foldl (fun b y => bboxUnion b (triBBox y.2)) acc) B := by
  induction xs with
  | nil => intro acc h _; exact h
  | cons w ws ih =>
    intro acc h hall
    exact ih _ (bboxUnion_bsub h (hall w (List.mem_cons_self w ws)))
      (fun z hz => hall z (List.mem_cons_of_mem w hz))

theorem bigBBox_bsub (x : ℕ × Tri) (xs : List (ℕ × Tri)) {B : BBox}
    (hall : ∀ z ∈ x :: xs, bsub (triBBox z.2) B) : bsub (bigBBox x xs) B :=
  foldl_union_bsub xs _ (hall x (List.mem_cons_self x xs))
    (fun z hz => hall z (List.mem_cons_of_mem x hz))

theorem buildN_box (n : ℕ) (x : ℕ × Tri) (xs : List (ℕ × Tri))
    (h : xs.length ≤ n) : boxOf (buildN n x xs) = bigBBox x xs := by
  cases n with
  | zero =>
    cases xs with
    | nil => rfl
    | cons y ys => simp at h
  | succ n =>
    cases xs with
    | nil => rfl
    | cons y ys => rfl

theorem buildN_leaves_perm :
    ∀ n x xs, xs.length ≤ n → (leavesOf (buildN n x xs)).Perm (x :: xs) := by
  intro n
  induction n with
  | zero =>
    intro x xs h
    cases xs with
    | nil => exact List.Perm.refl _
    | cons y ys => simp at h
  | succ n ih =>
    intro x xs h
    cases xs with
    | nil => exact List.Perm.refl _
    | cons y ys =>
      simp only [List.length_cons, Nat.succ_le_succ_iff] at h
      have hl := ih (splitStep x y ys).1.1 (splitStep x y ys).1.2
        (le_trans (splitStep_left_le x y ys) h)
      have hr := ih (splitStep x y ys).2.1 (splitStep x y ys).2.2
        (le_trans (splitStep_right_le x y ys) h)
      simp only [buildN, leavesOf]
      exact List.Perm.trans (List.Perm.append hl hr) (splitStep_perm x y ys)

/-- Modelled from the spec: the bounding box invariant of a hierarchy; every box
is well formed, contains the boxes of its children, and at a leaf contains the
box of its primitive. -/
def TreeInv : BVHTree → Prop
  | .leaf b _ t => bsub (triBBox t) b ∧ wfBox b
  | .node b l r => bsub (boxOf l) b ∧ bsub (boxOf r) b ∧ wfBox b ∧ TreeInv l ∧ TreeInv r

theorem buildN_inv :
    ∀ n x xs, xs.length ≤ n → TreeInv (buildN n x xs) := by
  intro n
  induction n with
  | zero =>
    intro x xs h
    cases xs with
    | nil => exact ⟨bsub_refl _, wf_triBBox _⟩
    | cons y ys => simp at h
  | succ n ih =>
    intro x xs h
    cases xs with
    | nil => exact ⟨bsub_refl _, wf_triBBox _⟩
    | cons y ys =>
      simp only [List.length_cons, Nat.succ_le_succ_iff] at h
      have hll := le_trans (splitStep_left_le x y ys) h
      have hrl := le_trans (splitStep_right_le x y ys) h
      have hperm := splitStep_perm x y ys
      refine ⟨?_, ?_, wf_bigBBox _ _, ih (splitStep x y ys).1.1 (splitStep x y ys).1.2 hll,
        ih (splitStep x y ys).2.1 (splitStep x y ys).2.2 hrl⟩
      · rw [buildN_box n _ _ hll]
        refine bigBBox_bsub _ _ (fun z hz => ?_)
        refine mem_bsub_bigBBox x (y :: ys) z (hperm.mem_iff.mp ?_)
        exact List.mem_append.mpr (Or.inl hz)
      · rw [buildN_box n _ _ hrl]
        refine bigBBox_bsub _ _ (fun z hz => ?_)
        refine mem_bsub_bigBBox x (y :: ys) z (hperm.mem_iff.mp ?_)
        exact List.mem_append.mpr (Or.inr hz)

theorem treeInv_wf : ∀ T, TreeInv T → wfBox (boxOf T) := by
  intro T h
  cases T with
  | leaf b i t => exact h.2
  | node b l r => exact h.2.2.1

theorem treeInv_leaf_bsub :
    ∀ T, TreeInv T → ∀ z ∈ leavesOf T, bsub (triBBox z.2) (boxOf T) := by
  intro T
  induction T with
  | leaf b i t =>
    intro h z hz
    simp only [leavesOf, List.mem_singleton] at hz
    subst hz
    exact h.1
  | node b l r ihl ihr =>
    intro h z hz
    simp only [leavesOf, List.mem_append] at hz
    rcases hz with hz | hz
    · exact bsub_trans (ihl h.2.2.2.1 z hz) h.1
    · exact bsub_trans (ihr h.2.2.2.2 z hz) h.2.1

theorem treeInv_sub :
    ∀ T, TreeInv T → ∀ s ∈ subtreesOf T, TreeInv s := by
  intro T
  induction T with
  | leaf b i t =>
    intro h s hs
    simp only [subtreesOf, List.mem_singleton] at hs
    subst hs
    exact h
  | node b l r ihl ihr =>
    intro h s hs
    simp only [subtreesOf, List.mem_cons, List.mem_append] at hs
    rcases hs with hs | hs | hs
    · subst hs; exact h
    · exact ihl h.2.2.2.1 s hs
    · exact ihr h.2.2.2.2 s hs

theorem treeInv_sub_bsub :
    ∀ T, TreeInv T → ∀ s ∈ subtreesOf T, bsub (boxOf s) (boxOf T) := by
  intro T
  induction T with
  | leaf b i t =>
    intro h s hs
    simp only [subtreesOf, List.mem_singleton] at hs
    subst hs
    exact bsub_refl _
  | node b l r ihl ihr =>
    intro h s hs
    simp only [subtreesOf, List.mem_cons, List.mem_append] at hs
    rcases hs with hs | hs | hs
    · subst hs; exact bsub_refl _
    · exact bsub_trans (ihl h.2.2.2.1 s hs) h.1
    · exact bsub_trans (ihr h.2.2.2.2 s hs) h.2.1

/-- Total size of the subtrees on a traversal stack. -/
def stackSize (stk : List BVHTree) : ℕ := (stk.map tsize).sum

/-- Modelled from the spec: the shared stack based traversal loop of the
traversal engine, parametrized over the prune test and the leaf update; the
fuel argument is the total size of the stacked subtrees, supplied by travLoop.
The hierarchy passed in the last argument is the read only store of the query;
the loop threads it unchanged and returns it with the result. -/
def travN {σ : Type} (prune : BBox → σ → Bool) (upd : σ → ℕ × Tri → σ) :
    ℕ → List BVHTree → σ → BVHTree → σ × BVHTree
  | _, [], s, store => (s, store)
  | 0, _ :: _, s, store => (s, store)
  | n + 1, t :: stk, s, store =>
    if prune (boxOf t) s then travN prune upd n stk s store
    else
      match t with
      | .leaf _ i tri => travN prune upd n stk (upd s (i, tri)) store
      | .node _ l r => travN prune upd n (l :: r :: stk) s store

/-- Modelled from the spec: run the traversal loop on an initial stack. -/
def travLoop {σ : Type} (prune : BBox → σ → Bool) (upd : σ → ℕ × Tri → σ)
    (stk : List BVHTree) (s : σ) (store : BVHTree) : σ × BVHTree :=
  travN prune upd (stackSize stk) stk s store

theorem travN_store {σ : Type} (prune : BBox → σ → Bool) (upd : σ → ℕ × Tri → σ) :
    ∀ n stk (s : σ) store, (travN prune upd n stk s store).2 = store := by
  intro n
  induction n with
  | zero => intro stk s store; cases stk <;> rfl
  | succ n ih =>
    intro stk s store
    cases stk with
    | nil => rfl
    | cons t ts =>
      simp only [travN]
      split
      · exact ih ts s store
      · cases t with
        | leaf b i tri => exact ih ts (upd s (i, tri)) store
        | node b l r => exact ih (l :: r :: ts) s store

theorem foldl_fixed {σ : Type} (f : σ → ℕ × Tri → σ) (s : σ) :
    ∀ l : List (ℕ × Tri), (∀ z ∈ l, f s z = s) → l.foldl f s = s := by
  intro l
  induction l with
  | nil => intro _; rfl
  | cons w ws ih =>
    intro h
    have hw : f s w = s := h w (List.mem_cons_self w ws)
    simp only [List.foldl_cons, hw]
    exact ih (fun z hz => h z (List.mem_cons_of_mem w hz))

theorem travN_foldl {σ : Type} {prune : BBox → σ → Bool} {upd : σ → ℕ × Tri → σ}
    (hs : ∀ bx (s : σ) z, prune bx s = true → bsub (triBBox z.2) bx → upd s z = s) :
    ∀ n stk (s : σ) store, stackSize stk ≤ n → (∀ T ∈ stk, TreeInv T) →
      (travN prune upd n stk s store).1 =
        stk.foldl (fun a T => (leavesOf T).foldl upd a) s := by
  intro n
  induction n with
  | zero =>
    intro stk s store hn _
    cases stk with
    | nil => rfl
    | cons t ts =>
      exfalso
      have := tsize_pos t
      simp only [stackSize, List.map_cons, List.sum_cons] at hn
      omega
  | succ n ih =>
    intro stk s store hn hinv
    cases stk with
    | nil => rfl
    | cons t ts =>
      have hts : stackSize ts ≤ n := by
        have := tsize_pos t
        simp only [stackSize, List.map_cons, List.sum_cons] at hn ⊢
        omega
      have hinv_t : TreeInv t := hinv t (List.mem_cons_self t ts)
      have hinv_ts : ∀ T ∈ ts, TreeInv T := fun T hT => hinv T (List.mem_cons_of_mem t hT)
      simp only [travN]
      split
      · next hp =>
        rw [ih ts s store hts hinv_ts]
        have hfix : (leavesOf t).foldl upd s = s := by
          refine foldl_fixed upd s _ (fun z hz => ?_)
          exact hs (boxOf t) s z hp (treeInv_leaf_bsub t hinv_t z hz)
        simp only [List.foldl_cons, hfix]
      · next hp =>
        cases t with
        | leaf b i tri =>
          rw [ih ts (upd s (i, tri)) store hts hinv_ts]
          simp only [List.foldl_cons, leavesOf, List.foldl_nil]
        | node b l r =>
          have hsz : stackSize (l :: r :: ts) ≤ n := by
            simp only [stackSize, List.map_cons, List.sum_cons, tsize] at hn ⊢
            omega
          have hinv2 : ∀ T ∈ l :: r :: ts, TreeInv T := by
            intro T hT
            rcases List.mem_cons.mp hT with h | hT2
            · subst h; exact hinv_t.2.2.2.1
            · rcases List.mem_cons.mp hT2 with h | hT3
              · subst h; exact hinv_t.2.2.2.2
              · exact hinv_ts T hT3
          rw [ih (l :: r :: ts) s store hsz hinv2]
          simp only [List.foldl_cons, leavesOf, List.foldl_append]

/-- Modelled from the spec: leaf update of the nearest point query; update only
on strictly smaller distance, keeping the earlier found primitive on ties. -/
def updN (p : Pt) (s : Option (ℚ × ℕ)) (z : ℕ × Tri) : Option (ℚ × ℕ) :=
  match s with
  | none => some (sqDistPointTri p z.2, z.1)
  | some q => if sqDistPointTri p z.2 < q.1 then some (sqDistPointTri p z.2, z.1) else s

/-- Modelled from the spec: prune test of the nearest point query; a subtree is
skipped when the box lower bound is at or above the current best distance. -/
def prunesN (p : Pt) (bx : BBox) (s : Option (ℚ × ℕ)) : Bool :=
  match s with
  | none => false
  | some q => decide (q.1 ≤ sqDistToBBox p bx)

/-- Modelled from the spec: leaf update of the ray query; keep the smallest
nonnegative hit parameter, earlier found primitive on ties. -/
def updR (o d : Pt) (s : Option (ℚ × ℕ)) (z : ℕ × Tri) : Option (ℚ × ℕ) :=
  match rayTri o d z.2 with
  | none => s
  | some tt =>
    match s with
    | none => some (tt, z.1)
    | some q => if tt < q.1 then some (tt, z.1) else s

/-- Modelled from the spec: prune test of the ray query, the ray box slab test
bounded by the current best parameter. -/
def prunesR (o d : Pt) (bx : BBox) (s : Option (ℚ × ℕ)) : Bool :=
  ! slabOk o d bx (s.map Prod.fst)

theorem updN_prune_fix (p : Pt) :
    ∀ bx (s : Option (ℚ × ℕ)) z, prunesN p bx s = true → bsub (triBBox z.2) bx →
      updN p s z = s := by
  intro bx s z hp hsub
  cases s with
  | none => simp [prunesN] at hp
  | some q =>
    simp only [prunesN, decide_eq_true_eq] at hp
    have hd := sqDistToBBox_le_sqDistPointTri (p := p) hsub
    simp only [updN, if_neg (not_lt.mpr (le_trans hp hd))]

theorem updR_prune_fix (o d : Pt) :
    ∀ bx (s : Option (ℚ × ℕ)) z, prunesR o d bx s = true → bsub (triBBox z.2) bx →
      updR o d s z = s := by
  intro bx s z hp hsub
  simp only [prunesR, Bool.not_eq_true', Bool.not_eq_true] at hp
  cases hray : rayTri o d z.2 with
  | none => simp only [updR, hray]
  | some tt =>
    have hmem : memBBox (padd o (smul tt d)) bx :=
      memBBox_of_bsub (rayTri_hitpoint_mem hray) hsub
    have ht0 : 0 ≤ tt := (rayTri_some hray).2.2.2.2.2
    cases s with
    | none =>
      exfalso
      have := slabOk_true (none : Option ℚ) hmem ht0 (fun u hu => by cases hu)
      simp only [Option.map_none'] at hp
      rw [this] at hp
      cases hp
    | some q =>
      by_cases hlt : tt < q.1
      · exfalso
        have := slabOk_true (some q.1) hmem ht0
          (fun u hu => by injection hu with hu; subst hu; exact le_of_lt hlt)
        simp only [Option.map_some'] at hp
        rw [this] at hp
        cases hp
      · simp only [updR, hray, if_neg hlt]

/-- Modelled from the spec: nearest point query, stack based traversal with the
box lower bound prune, returning the result with the unchanged hierarchy store. -/
def nearestRun (h : BVHTree) (p : Pt) : Option (ℚ × ℕ) × BVHTree :=
  travLoop (prunesN p) (updN p) [h] none h

/-- Result of the nearest point query: best squared distance and original index. -/
def nearestQuery (h : BVHTree) (p : Pt) : Option (ℚ × ℕ) := (nearestRun h p).1

/-- Modelled from the spec: the disabled prune test of the brute force traversal. -/
def noPrune (bx : BBox) (s : Option (ℚ × ℕ)) : Bool := false

/-- Modelled from the spec: the same nearest point traversal with the bounding
box lower bound prune disabled: the brute force traversal of all leaves. -/
def unprunedNearestRun (h : BVHTree) (p : Pt) : Option (ℚ × ℕ) × BVHTree :=
  travLoop noPrune (updN p) [h] none h

def unprunedNearest (h : BVHTree) (p : Pt) : Option (ℚ × ℕ) := (unprunedNearestRun h p).1

/-- Modelled from the spec: ray intersection query, stack based traversal with
the slab prune, returning the result with the unchanged hierarchy store. -/
def rayRun (h : BVHTree) (o d : Pt) : Option (ℚ × ℕ) × BVHTree :=
  travLoop (prunesR o d) (updR o d) [h] none h

/-- Result of the ray query: best hit parameter and original index, or none. -/
def rayQuery (h : BVHTree) (o d : Pt) : Option (ℚ × ℕ) := (rayRun h o d).1

/-- Primitives numbered from k in list order. -/
def idxFrom (k : ℕ) : List Tri → List (ℕ × Tri)
  | [] => []
  | t :: ts => (k, t) :: idxFrom (k + 1) ts

/-- Original indexing of a nonempty primitive list, index zero first. -/
def primsOf (t : Tri) (ts : List Tri) : List (ℕ × Tri) := (0, t) :: idxFrom 1 ts

/-- Modelled from the spec: hierarchy built over a nonempty primitive list
numbered in original order. -/
def buildH (t : Tri) (ts : List Tri) : BVHTree := buildT (0, t) (idxFrom 1 ts)

theorem idxFrom_length : ∀ (ts : List Tri) (k : ℕ), (idxFrom k ts).length = ts.length := by
  intro ts
  induction ts with
  | nil => intro k; rfl
  | cons t ts ih => intro k; simp [idxFrom, ih]

theorem buildH_inv (t : Tri) (ts : List Tri) : TreeInv (buildH t ts) :=
  buildN_inv _ _ _ (le_refl _)

theorem buildH_leaves_perm (t : Tri) (ts : List Tri) :
    (leavesOf (buildH t ts)).Perm (primsOf t ts) :=
  buildN_leaves_perm _ _ _ (le_refl _)

theorem nearestQuery_foldl {h : BVHTree} (p : Pt) (hinv : TreeInv h) :
    nearestQuery h p = (leavesOf h).foldl (updN p) none := by
  unfold nearestQuery nearestRun travLoop
  rw [travN_foldl (updN_prune_fix p) _ _ _ _ (le_refl _)
    (by intro T hT; simp only [List.mem_singleton] at hT; subst hT; exact hinv)]
  simp only [List.foldl_cons, List.foldl_nil]

theorem unprunedNearest_foldl {h : BVHTree} (p : Pt) (hinv : TreeInv h) :
    unprunedNearest h p = (leavesOf h).foldl (updN p) none := by
  unfold unprunedNearest unprunedNearestRun travLoop
  rw [travN_foldl (by intro bx s z hp _; cases hp) _ _ _ _ (le_refl _)
    (by intro T hT; simp only [List.mem_singleton] at hT; subst hT; exact hinv)]
  simp only [List.foldl_cons, List.foldl_nil]

theorem rayQuery_foldl {h : BVHTree} (o d : Pt) (hinv : TreeInv h) :
    rayQuery h o d = (leavesOf h).foldl (updR o d) none := by
  unfold rayQuery rayRun travLoop
  rw [travN_foldl (updR_prune_fix o d) _ _ _ _ (le_refl _)
    (by intro T hT; simp only [List.mem_singleton] at hT; subst hT; exact hinv)]
  simp only [List.foldl_cons, List.foldl_nil]

theorem updN_isSome (p : Pt) (s : Option (ℚ × ℕ)) (z : ℕ × Tri) :
    ∃ q, updN p s z = some q ∧ q.1 ≤ sqDistPointTri p z.2 := by
  cases s with
  | none => exact ⟨_, rfl, le_refl _⟩
  | some q0 =>
    by_cases hlt : sqDistPointTri p z.2 < q0.1
    · exact ⟨(sqDistPointTri p z.2, z.1), by simp only [updN, if_pos hlt], le_refl _⟩
    · exact ⟨q0, by simp only [updN, if_neg hlt], not_lt.mp hlt⟩

theorem foldl_updN_mono (p : Pt) :
    ∀ (l : List (ℕ × Tri)) (q : ℚ × ℕ),
      ∃ q2, l.foldl (updN p) (some q) = some q2 ∧ q2.1 ≤ q.1 := by
  intro l
  induction l with
  | nil => intro q; exact ⟨q, rfl, le_refl _⟩
  | cons w ws ih =>
    intro q
    simp only [List.foldl_cons]
    by_cases hlt : sqDistPointTri p w.2 < q.1
    · obtain ⟨q2, he, hle⟩ := ih (sqDistPointTri p w.2, w.1)
      rw [show updN p (some q) w = some (sqDistPointTri p w.2, w.1) by
        simp only [updN, if_pos hlt]] at *
      exact ⟨q2, he, le_trans hle (le_of_lt hlt)⟩
    · obtain ⟨q2, he, hle⟩ := ih q
      rw [show updN p (some q) w = some q by simp only [updN, if_neg hlt]]
      exact ⟨q2, he, hle⟩

theorem foldl_updN_le (p : Pt) :
    ∀ (l : List (ℕ × Tri)) (s : Option (ℚ × ℕ)) (z : ℕ × Tri), z ∈ l →
      ∀ q, l.foldl (updN p) s = some q → q.1 ≤ sqDistPointTri p z.2 := by
  intro l
  induction l with
  | nil => intro s z hz; exact absurd hz (List.not_mem_nil z)
  | cons w ws ih =>
    intro s z hz q hq
    simp only [List.foldl_cons] at hq
    rcases List.mem_cons.mp hz with h | h
    · subst h
      obtain ⟨q1, he1, hle1⟩ := updN_isSome p s z
      rw [he1] at hq
      obtain ⟨q2, he2, hle2⟩ := foldl_updN_mono p ws q1
      rw [he2] at hq
      injection hq with hq
      subst hq
      exact le_trans hle2 hle1
    · exact ih (updN p s w) z h q hq

theorem foldl_updN_achieved (p : Pt) :
    ∀ (l : List (ℕ × Tri)) (s : Option (ℚ × ℕ)) (q : ℚ × ℕ),
      l.foldl (updN p) s = some q →
      (∃ z ∈ l, z.1 = q.2 ∧ sqDistPointTri p z.2 = q.1) ∨ s = some q := by
  intro l
  induction l with
  | nil => intro s q hq; exact Or.inr hq
  | cons w ws ih =>
    intro s q hq
    simp only [List.foldl_cons] at hq
    rcases ih (updN p s w) q hq with h | h
    · obtain ⟨z, hz, h1, h2⟩ := h
      exact Or.inl ⟨z, List.mem_cons_of_mem w hz, h1, h2⟩
    · cases s with
      | none =>
        simp only [updN] at h
        injection h with h
        exact Or.inl ⟨w, List.mem_cons_self w ws, by rw [← h], by rw [← h]⟩
      | some q0 =>
        by_cases hlt : sqDistPointTri p w.2 < q0.1
        · simp only [updN, if_pos hlt] at h
          injection h with h
          exact Or.inl ⟨w, List.mem_cons_self w ws, by rw [← h], by rw [← h]⟩
        · simp only [updN, if_neg hlt] at h
          exact Or.inr h

theorem foldl_updN_some (p : Pt) (w : ℕ × Tri) (ws : List (ℕ × Tri))
    (s : Option (ℚ × ℕ)) : ∃ q, (w :: ws).foldl (updN p) s = some q := by
  simp only [List.foldl_cons]
  obtain ⟨q1, he1, _⟩ := updN_isSome p s w
  rw [he1]
  obtain ⟨q2, he2, _⟩ := foldl_updN_mono p ws q1
  exact ⟨q2, he2⟩

theorem foldl_updR_none_iff (o d : Pt) :
    ∀ (l : List (ℕ × Tri)) (s : Option (ℚ × ℕ)),
      l.foldl (updR o d) s = none ↔ (s = none ∧ ∀ z ∈ l, rayTri o d z.2 = none) := by
  intro l
  induction l with
  | nil => intro s; simp
  | cons w ws ih =>
    intro s
    simp only [List.foldl_cons]
    rw [ih (updR o d s w)]
    constructor
    · rintro ⟨h1, h2⟩
      cases hray : rayTri o d w.2 with
      | none =>
        simp only [updR, hray] at h1
        exact ⟨h1, fun z hz => by
          rcases List.mem_cons.mp hz with h | h
          · subst h; exact hray
          · exact h2 z h⟩
      | some tt =>
        exfalso
        cases s with
        | none => simp only [updR, hray] at h1; cases h1
        | some q =>
          simp only [updR, hray] at h1
          split at h1 <;> cases h1
    · rintro ⟨h1, h2⟩
      subst h1
      have hray : rayTri o d w.2 = none := h2 w (List.mem_cons_self w ws)
      refine ⟨by simp only [updR, hray], fun z hz => h2 z (List.mem_cons_of_mem w hz)⟩

theorem foldl_updR_mono (o d : Pt) :
    ∀ (l : List (ℕ × Tri)) (q : ℚ × ℕ),
      ∃ q2, l.foldl (updR o d) (some q) = some q2 ∧ q2.1 ≤ q.1 := by
  intro l
  induction l with
  | nil => intro q; exact ⟨q, rfl, le_refl _⟩
  | cons w ws ih =>
    intro q
    simp only [List.foldl_cons]
    cases hray : rayTri o d w.2 with
    | none =>
      rw [show updR o d (some q) w = some q by simp only [updR, hray]]
      exact ih q
    | some tt =>
      by_cases hlt : tt < q.1
      · obtain ⟨q2, he, hle⟩ := ih (tt, w.1)
        rw [show updR o d (some q) w = some (tt, w.1) by simp only [updR, hray, if_pos hlt]]
        exact ⟨q2, he, le_trans hle (le_of_lt hlt)⟩
      · obtain ⟨q2, he, hle⟩ := ih q
        rw [show updR o d (some q) w = some q by simp only [updR, hray, if_neg hlt]]
        exact ⟨q2, he, hle⟩

theorem foldl_updR_le (o d : Pt) :
    ∀ (l : List (ℕ × Tri)) (s : Option (ℚ × ℕ)) (z : ℕ × Tri) (tt : ℚ), z ∈ l →
      rayTri o d z.2 = some tt →
      ∀ q, l.foldl (updR o d) s = some q → q.1 ≤ tt := by
  intro l
  induction l with
  | nil => intro s z tt hz; exact absurd hz (List.not_mem_nil z)
  | cons w ws ih =>
    intro s z tt hz hray q hq
    simp only [List.foldl_cons] at hq
    rcases List.mem_cons.mp hz with h | h
    · subst h
      have h1 : ∃ q1, updR o d s z = some q1 ∧ q1.1 ≤ tt := by
        cases s with
        | none => exact ⟨(tt, z.1), by simp only [updR, hray], le_refl _⟩
        | some q0 =>
          by_cases hlt : tt < q0.1
          · exact ⟨(tt, z.1), by simp only [updR, hray, if_pos hlt], le_refl _⟩
          · exact ⟨q0, by simp only [updR, hray, if_neg hlt], not_lt.mp hlt⟩
      obtain ⟨q1, he1, hle1⟩ := h1
      rw [he1] at hq
      obtain ⟨q2, he2, hle2⟩ := foldl_updR_mono o d ws q1
      rw [he2] at hq
      injection hq with hq
      subst hq
      exact le_trans hle2 hle1
    · exact ih (updR o d s w) z tt h hray q hq

theorem foldl_updR_achieved (o d : Pt) :
    ∀ (l : List (ℕ × Tri)) (s : Option (ℚ × ℕ)) (q : ℚ × ℕ),
      l.foldl (updR o d) s = some q →
      (∃ z ∈ l, z.1 = q.2 ∧ rayTri o d z.2 = some q.1) ∨ s = some q := by
  intro l
  induction l with
  | nil => intro s q hq; exact Or.inr hq
  | cons w ws ih =>
    intro s q hq
    simp only [List.foldl_cons] at hq
    rcases ih (updR o d s w) q hq with h | h
    · obtain ⟨z, hz, h1, h2⟩ := h
      exact Or.inl ⟨z, List.mem_cons_of_mem w hz, h1, h2⟩
    · cases hray : rayTri o d w.2 with
      | none =>
        simp only [updR, hray] at h
        exact Or.inr h
      | some tt =>
        cases s with
        | none =>
          simp only [updR, hray] at h
          injection h with h
          exact Or.inl ⟨w, List.mem_cons_self w ws, by rw [← h], by rw [← h, hray]⟩
        | some q0 =>
          by_cases hlt : tt < q0.1
          · simp only [updR, hray, if_pos hlt] at h
            injection h with h
            exact Or.inl ⟨w, List.mem_cons_self w ws, by rw [← h], by rw [← h, hray]⟩
          · simp only [updR, hray, if_neg hlt] at h
            exact Or.inr h

theorem internal_succ_eq_leaves :
    ∀ T : BVHTree, internalCount T + 1 = (leavesOf T).length := by
  intro T
  induction T with
  | leaf b i t => rfl
  | node b l r ihl ihr =>
    simp only [internalCount, leavesOf, List.length_append]
    omega

/-- Well formedness of every box of a tree. -/
def allWf : BVHTree → Prop
  | .leaf b _ _ => wfBox b
  | .node b l r => wfBox b ∧ allWf l ∧ allWf r

theorem treeInv_allWf : ∀ T, TreeInv T → allWf T := by
  intro T
  induction T with
  | leaf b i t => intro h; exact h.2
  | node b l r ihl ihr =>
    intro h
    exact ⟨h.2.2.1, ihl h.2.2.2.1, ihr h.2.2.2.2⟩

/-- Modelled from the spec: a batch item for point queries: a nonempty primitive
list and the query points of the item. -/
structure BatchItem where
  first : Tri
  rest : List Tri
  queries : List Pt

/-- Modelled from the spec: the results of one batch item, one per query point,
in query order, computed only from the hierarchy and queries of the item. -/
def itemResults (it : BatchItem) : List (Option (ℚ × ℕ)) :=
  it.queries.map (nearestQuery (buildH it.first it.rest))

/-- Modelled from the spec: batch query orchestrator for point queries; invokes
the traversal independently per batch item, preserving input order. -/
def batchQuery (items : List BatchItem) : List (List (Option (ℚ × ℕ))) :=
  items.map itemResults

/-- Modelled from the spec: a batch item for ray queries: a nonempty primitive
list and the rays (origin and direction pairs) of the item. -/
structure RayBatchItem where
  first : Tri
  rest : List Tri
  rays : List (Pt × Pt)

/-- Modelled from the spec: the ray results of one batch item, in ray order. -/
def rayItemResults (it : RayBatchItem) : List (Option (ℚ × ℕ)) :=
  it.rays.map (fun r => rayQuery (buildH it.first it.rest) r.1 r.2)

/-- Modelled from the spec: batch query orchestrator for ray queries. -/
def batchRayQuery (items : List RayBatchItem) : List (List (Option (ℚ × ℕ))) :=
  items.map rayItemResults

/-- Modelled from the spec: the error reported for invalid build input. -/
inductive BuildError where
  | invalidInput
deriving DecidableEq, Repr

/-- Modelled from the spec: hierarchy construction over a primitive set; a
hierarchy cannot be built over zero primitives, so an empty primitive set fails
with the InvalidInput error. -/
def buildHierarchy : List Tri → Except BuildError BVHTree
  | [] => .error .invalidInput
  | t :: ts => .ok (buildH t ts)

/-- Modelled from the spec: hierarchy construction for a batch of primitive
sets; the first invalid item aborts the batch build. -/
def buildBatch : List (List Tri) → Except BuildError (List BVHTree)
  | [] => .ok []
  | ts :: rest =>
    match buildHierarchy ts, buildBatch rest with
    | .error e, _ => .error e
    | .ok _, .error e => .error e
    | .ok h, .ok hs => .ok (h :: hs)

/-- Statement forms of the package initializer: a plain import or a from import. -/
inductive PyStmt where
  | importMod (m : String)
  | fromImport (m : String) (names : List String)
deriving DecidableEq, Repr

/-- Embedded from src/bvh_distance_queries/__init__.py: the statements of the
package initializer, in source order. -/
def initModule : List PyStmt :=
  [.importMod "torch",
    .fromImport ".bvh_search_tree" ["BVH", "BVHRayIntersection"],
    .fromImport ".tetra_sampler" ["Sampler"],
    .fromImport ".mesh_distance" ["PointToMeshResidual"]]

/-- Import environment: the importable modules and the names each one exports. -/
structure PyEnv where
  modules : List String
  exports : String → List String

/-- Failure of an import statement, carrying the module whose import failed. -/
inductive PyError where
  | importFailed (m : String)
deriving DecidableEq, Repr

/-- Execution of one initializer statement: a plain import binds the module
name, a from import binds the imported names; a missing module or a missing
name raises an import error. -/
def execStmt (env : PyEnv) (bound : List String) : PyStmt → Except PyError (List String)
  | .importMod m =>
    if m ∈ env.modules then .ok (bound ++ [m]) else .error (.importFailed m)
  | .fromImport m ns =>
    if m ∈ env.modules ∧ ∀ n ∈ ns, n ∈ env.exports m then .ok (bound ++ ns)
    else .error (.importFailed m)

/-- Execution of a statement list, accumulating the bound names in order; the
first failing statement aborts the module with its import error. -/
def runStmts (env : PyEnv) : List PyStmt → List String → Except PyError (List String)
  | [], bound => .ok bound
  | st :: sts, bound =>
    match execStmt env bound st with
    | .error e => .error e
    | .ok b2 => runStmts env sts b2

/-- Modelled from the source initializer: importing the package executes its
statements in order from an empty namespace and returns the bound names, or
the failure that aborted the package creation. -/
def runInit (env : PyEnv) : Except PyError (List String) := runStmts env initModule []

/-- Relative module reference, naming a submodule of the package (the native
extension modules are referenced this way by the initializer). -/
def isRel (m : String) : Bool :=
  match m.data with
  | [] => false
  | ch :: _ => ch = '.'

/-- Module and symbol pairs imported from the native extension submodules
(the relative imports) by a statement list. -/
def extImportsOf : List PyStmt → List (String × String)
  | [] => []
  | .importMod _ :: sts => extImportsOf sts
  | .fromImport m ns :: sts =>
    (if isRel m then ns.map (fun n => (m, n)) else []) ++ extImportsOf sts

/-- Module and symbol pairs the initializer imports from the extension modules. -/
def extImportPairs : List (String × String) := extImportsOf initModule

/-- The symbols the initializer imports from the extension modules. -/
def extImportedNames : List String := extImportPairs.map Prod.snd

/-- The visible source files of the repository fragment. -/
def visibleSources : List String := ["bvh_distance_queries/__init__.py"]

/-- Modelled from the spec: the order N brute force reference for nearest point
queries: fold the strict improvement update over the primitives in original
index order; on equal distances the earlier, lower original index wins. -/
def bruteNearest (t : Tri) (ts : List Tri) (p : Pt) : Option (ℚ × ℕ) :=
  (primsOf t ts).foldl (updN p) none

theorem subtreesOf_head : ∀ T : BVHTree, (subtreesOf T).head? = some T := by
  intro T
  cases T <;> rfl

/-- Degenerate point primitive at x equal two, used by concrete evaluations. -/
def cT0 : Tri := ⟨⟨2, 0, 0⟩, ⟨2, 0, 0⟩, ⟨2, 0, 0⟩⟩

/-- Degenerate point primitive at x equal minus two, used by concrete evaluations. -/
def cT1 : Tri := ⟨⟨-2, 0, 0⟩, ⟨-2, 0, 0⟩, ⟨-2, 0, 0⟩⟩

/-- Query point on the z axis, equidistant from cT0 and cT1. -/
def cP : Pt := ⟨0, 0, 5⟩

/-- The example unit triangle of the specification. -/
def sTri : Tri := ⟨⟨0, 0, 0⟩, ⟨1, 0, 0⟩, ⟨0, 1, 0⟩⟩

/-- The example ray origin of the specification. -/
def rayO : Pt := ⟨1/5, 1/5, 5⟩

/-- The example ray direction of the specification. -/
def rayD : Pt := ⟨0, 0, -1⟩

/-- The modules the initializer needs: torch and the three extension modules. -/
def modsNeeded : List String :=
  ["torch", ".bvh_search_tree", ".tetra_sampler", ".mesh_distance"]

/-- The names a successful package import binds, in binding order. -/
def boundNames : List String :=
  ["torch", "BVH", "BVHRayIntersection", "Sampler", "PointToMeshResidual"]

/-- An import environment under which the package import succeeds. -/
def cEnv : PyEnv :=
  ⟨["torch", ".bvh_search_tree", ".tetra_sampler", ".mesh_distance"],
    fun m => if m = ".bvh_search_tree" then ["BVH", "BVHRayIntersection"]
      else if m = ".tetra_sampler" then ["Sampler"]
      else if m = ".mesh_distance" then ["PointToMeshResidual"] else []⟩

/-- An import environment with no importable modules. -/
def badEnv : PyEnv := ⟨[], fun _ => []⟩

/-- Claim C3: for every mesh and query point, the pruned BVH traversal (which
skips a subtree when the box lower bound distance is at or above the current
best) returns exactly the same nearest distance and nearest primitive index as
the unpruned brute force traversal of all leaves. -/
theorem c3_prune_refinement (t : Tri) (ts : List Tri) (p : Pt) :
    nearestQuery (buildH t ts) p = unprunedNearest (buildH t ts) p := by
  rw [nearestQuery_foldl p (buildH_inv t ts), unprunedNearest_foldl p (buildH_inv t ts)]

/-- Claim C5: for every nonempty primitive list, including degenerate ones, the
builder terminates (it is a total function) and produces a hierarchy whose
leaves reference exactly the N input primitives (as a permutation of the
original indexed primitives), with exactly N leaf referenced primitives, at
most N minus one internal nodes, and well formed (finite, min below max)
bounding boxes throughout. -/
theorem c5_builder_counts (t : Tri) (ts : List Tri) :
    (leavesOf (buildH t ts)).Perm (primsOf t ts) ∧
    (leavesOf (buildH t ts)).length = ts.length + 1 ∧
    internalCount (buildH t ts) ≤ ts.length ∧
    allWf (buildH t ts) := by
  have hperm := buildH_leaves_perm t ts
  have hlen : (leavesOf (buildH t ts)).length = ts.length + 1 := by
    rw [hperm.length_eq]
    simp [primsOf, idxFrom_length]
  refine ⟨hperm, hlen, ?_, treeInv_allWf _ (buildH_inv t ts)⟩
  have hint := internal_succ_eq_leaves (buildH t ts)
  omega

/-- Claim C6: hierarchy construction over an empty primitive set fails with the
InvalidInput error, and a batch containing an empty primitive set fails with
the InvalidInput error rather than building a hierarchy. -/
theorem c6_empty_invalid (items : List (List Tri)) (h : [] ∈ items) :
    buildHierarchy [] = .error .invalidInput ∧
      buildBatch items = .error .invalidInput := by
  refine ⟨rfl, ?_⟩
  induction items with
  | nil => cases h
  | cons ts rest ih =>
    rcases List.mem_cons.mp h with h1 | h1
    · subst h1
      rfl
    · simp only [buildBatch]
      cases hb : buildHierarchy ts with
      | error e => cases e; rfl
      | ok hh => rw [ih h1]

/-- Witness for claim C6 at a concrete batch with an empty second item. -/
theorem c6_empty_invalid_witness :
    buildHierarchy [] = .error .invalidInput ∧
      buildBatch [[sTri], []] = .error .invalidInput :=
  c6_empty_invalid [[sTri], []] (by decide)

/-- Claim C7: queries are deterministic and read only: running a query leaves
the hierarchy store unchanged, and running the same query again on the store
returned by the first run returns the identical result, for both the nearest
point query and the ray query. -/
theorem c7_idempotent_readonly (h : BVHTree) (p o d : Pt) :
    (nearestRun h p).2 = h ∧
    nearestRun (nearestRun h p).2 p = nearestRun h p ∧
    (rayRun h o d).2 = h ∧
    rayRun (rayRun h o d).2 o d = rayRun h o d := by
  have h1 : (nearestRun h p).2 = h := travN_store _ _ _ _ _ _
  have h2 : (rayRun h o d).2 = h := travN_store _ _ _ _ _ _
  exact ⟨h1, by rw [h1], h2, by rw [h2]⟩

/-- Claim C8: the batch query orchestrator maps independent batch items (of
possibly differing primitive and query counts) to per item result lists whose
order mirrors the input order exactly, per batch item and per query point or
ray within an item; each position of the output depends only on the batch item
at the same input position. -/
theorem c8_batch_order (items : List BatchItem) (ritems : List RayBatchItem) :
    (batchQuery items).length = items.length ∧
    (∀ i, (batchQuery items).get? i = (items.get? i).map itemResults) ∧
    (∀ it : BatchItem, (itemResults it).length = it.queries.length ∧
      ∀ j, (itemResults it).get? j =
        (it.queries.get? j).map (nearestQuery (buildH it.first it.rest))) ∧
    (batchRayQuery ritems).length = ritems.length ∧
    (∀ i, (batchRayQuery ritems).get? i = (ritems.get? i).map rayItemResults) ∧
    (∀ it : RayBatchItem, (rayItemResults it).length = it.rays.length ∧
      ∀ j, (rayItemResults it).get? j =
        (it.rays.get? j).map (fun r => rayQuery (buildH it.first it.rest) r.1 r.2)) := by
  refine ⟨?_, ?_, ?_, ?_, ?_, ?_⟩
  · simp [batchQuery]
  · intro i; simp [batchQuery, List.get?_map]
  · intro it
    exact ⟨by simp [itemResults], fun j => by simp [itemResults, List.get?_map]⟩
  · simp [batchRayQuery]
  · intro i; simp [batchRayQuery, List.get?_map]
  · intro it
    exact ⟨by simp [rayItemResults], fun j => by simp [rayItemResults, List.get?_map]⟩

/-- Claim C1 as stated is refuted at this input: two primitives at equal
distance from the query point whose centroid order along the split axis is
opposite to their original order; the pruned traversal reports the primitive
with original index one while the brute force reference with lowest index tie
breaking reports index zero. -/
theorem c1_counterexample :
    sqDistPointTri cP cT0 = 29 ∧ sqDistPointTri cP cT1 = 29 ∧
    nearestQuery (buildH cT0 [cT1]) cP = some (29, 1) ∧
    bruteNearest cT0 [cT1] cP = some (29, 0) ∧
    nearestQuery (buildH cT0 [cT1]) cP ≠ bruteNearest cT0 [cT1] cP := by decide

/-- Claim C1 (amended): for every hierarchy built from a nonempty primitive
list and every query point, the nearest point query returns the globally
minimum point to triangle squared distance over all primitives (equal to the
brute force minimum over every triangle) together with the original index of a
primitive achieving that minimum; on ties the reported index is the first one
in traversal order, which need not be the lowest original index. -/
theorem c1_nearest_global_min (t : Tri) (ts : List Tri) (p : Pt) :
    ∃ d i, nearestQuery (buildH t ts) p = some (d, i) ∧
      (∀ z ∈ primsOf t ts, d ≤ sqDistPointTri p z.2) ∧
      (∃ z ∈ primsOf t ts, z.1 = i ∧ sqDistPointTri p z.2 = d) := by
  have hfold := nearestQuery_foldl p (buildH_inv t ts)
  have hperm := buildH_leaves_perm t ts
  cases hl : leavesOf (buildH t ts) with
  | nil =>
    exfalso
    have := hperm.length_eq
    rw [hl] at this
    simp [primsOf] at this
  | cons w ws =>
    obtain ⟨q, hq⟩ := foldl_updN_some p w ws none
    rw [hl] at hfold
    refine ⟨q.1, q.2, by rw [hfold, hq], ?_, ?_⟩
    · intro z hz
      refine foldl_updN_le p (w :: ws) none z ?_ q hq
      rw [← hl]
      exact hperm.mem_iff.mpr hz
    · rcases foldl_updN_achieved p (w :: ws) none q hq with h | h
      · obtain ⟨z, hz, h1, h2⟩ := h
        refine ⟨z, ?_, h1, h2⟩
        rw [← hl] at hz
        exact hperm.mem_iff.mp hz
      · cases h

/-- Witness for the amended claim C1 at the concrete counterexample input. -/
theorem c1_nearest_global_min_witness :
    ∃ d i, nearestQuery (buildH cT0 [cT1]) cP = some (d, i) ∧
      (∀ z ∈ primsOf cT0 [cT1], d ≤ sqDistPointTri cP z.2) ∧
      (∃ z ∈ primsOf cT0 [cT1], z.1 = i ∧ sqDistPointTri cP z.2 = d) :=
  c1_nearest_global_min cT0 [cT1] cP

/-- Claim C2: for every hierarchy and ray, the ray query reports a hit exactly
when some triangle intersects the ray at a nonnegative parameter (none, the no
hit indicator, otherwise), and on a hit it reports the globally minimal such
parameter together with the original index of a primitive achieving it. -/
theorem c2_ray_query (t : Tri) (ts : List Tri) (o d : Pt) :
    (rayQuery (buildH t ts) o d = none ↔ ∀ z ∈ primsOf t ts, rayTri o d z.2 = none) ∧
    (∀ tt i, rayQuery (buildH t ts) o d = some (tt, i) →
      0 ≤ tt ∧ (∃ z ∈ primsOf t ts, z.1 = i ∧ rayTri o d z.2 = some tt) ∧
        (∀ z ∈ primsOf t ts, ∀ u, rayTri o d z.2 = some u → tt ≤ u)) := by
  have hfold := rayQuery_foldl o d (buildH_inv t ts)
  have hperm := buildH_leaves_perm t ts
  constructor
  · rw [hfold, foldl_updR_none_iff]
    constructor
    · rintro ⟨_, hall⟩ z hz
      exact hall z (hperm.mem_iff.mpr hz)
    · intro hall
      exact ⟨rfl, fun z hz => hall z (hperm.mem_iff.mp hz)⟩
  · intro tt i hq
    rw [hfold] at hq
    rcases foldl_updR_achieved o d _ none (tt, i) hq with h | h
    · obtain ⟨z, hz, h1, h2⟩ := h
      refine ⟨(rayTri_some h2).2.2.2.2.2, ⟨z, hperm.mem_iff.mp hz, h1, h2⟩, ?_⟩
      intro z2 hz2 u hu
      exact foldl_updR_le o d _ none z2 u (hperm.mem_iff.mpr hz2) hu (tt, i) hq
    · cases h

/-- Witness for claim C2 at the example ray and triangle of the specification:
the query hits at parameter five on primitive zero, and the theorem yields the
achieving primitive and the minimality of the parameter. -/
theorem c2_ray_query_witness :
    0 ≤ (5 : ℚ) ∧ (∃ z ∈ primsOf sTri [], z.1 = 0 ∧ rayTri rayO rayD z.2 = some 5) ∧
      (∀ z ∈ primsOf sTri [], ∀ u, rayTri rayO rayD z.2 = some u → 5 ≤ u) :=
  (c2_ray_query sTri [] rayO rayD).2 5 0 (by decide)

/-- Claim C4: in every built hierarchy all bounding boxes are well formed (min
below max componentwise), every node of the preorder sequence (whose head,
index zero, is the root) contains the boxes of all its descendant nodes and the
boxes of all primitives in its leaf range, and the read only queries return the
hierarchy store unchanged, preserving the invariant. -/
theorem c4_box_invariant (t : Tri) (ts : List Tri) :
    (∀ s ∈ subtreesOf (buildH t ts), wfBox (boxOf s) ∧
      (∀ u ∈ subtreesOf s, bsub (boxOf u) (boxOf s)) ∧
      (∀ z ∈ leavesOf s, bsub (triBBox z.2) (boxOf s))) ∧
    (subtreesOf (buildH t ts)).head? = some (buildH t ts) ∧
    (∀ p, (nearestRun (buildH t ts) p).2 = buildH t ts) ∧
    (∀ o d, (rayRun (buildH t ts) o d).2 = buildH t ts) := by
  refine ⟨?_, subtreesOf_head _, fun p => travN_store _ _ _ _ _ _,
    fun o d => travN_store _ _ _ _ _ _⟩
  intro s hs
  have hinv := treeInv_sub (buildH t ts) (buildH_inv t ts) s hs
  exact ⟨treeInv_wf s hinv, treeInv_sub_bsub s hinv, treeInv_leaf_bsub s hinv⟩

/-- Witness for claim C4 at a one primitive hierarchy. -/
theorem c4_box_invariant_witness :
    wfBox (boxOf (buildH sTri [])) ∧
      (subtreesOf (buildH sTri [])).head? = some (buildH sTri []) :=
  ⟨((c4_box_invariant sTri []).1 (buildH sTri []) (by decide)).1,
    (c4_box_invariant sTri []).2.1⟩

/-- Claim C9 as stated is refuted by the source: the set of symbols the
initializer imports from the extension modules has four distinct members (BVH,
BVHRayIntersection, Sampler, PointToMeshResidual), not exactly three. -/
theorem c9_counterexample :
    extImportedNames.length = 4 ∧ extImportedNames.Nodup ∧
      extImportedNames.toFinset.card = 4 ∧ extImportedNames.toFinset.card ≠ 3 := by
  decide

/-- Claim C9 (amended): the visible repository fragment consists of a single
package initializer, and that initializer imports exactly four symbols from
exactly three native extension modules: BVH and BVHRayIntersection (the BVH
search structure and its ray intersection variant) from the search tree module,
Sampler from the tetra sampler module, and PointToMeshResidual from the mesh
distance module. -/
theorem c9_ext_imports :
    visibleSources.length = 1 ∧
    extImportPairs = [(".bvh_search_tree", "BVH"),
      (".bvh_search_tree", "BVHRayIntersection"),
      (".tetra_sampler", "Sampler"), (".mesh_distance", "PointToMeshResidual")] ∧
    (extImportPairs.map Prod.fst).dedup =
      [".bvh_search_tree", ".tetra_sampler", ".mesh_distance"] := by
  decide

theorem mem_modsNeeded {m : String} (hm : m ∈ modsNeeded) :
    m = "torch" ∨ m = ".bvh_search_tree" ∨ m = ".tetra_sampler" ∨
      m = ".mesh_distance" := by
  simpa [modsNeeded] using hm

/-- Claim C10: a successful import of the package binds exactly the names
torch, BVH, BVHRayIntersection, Sampler and PointToMeshResidual, in that order,
and a successful import requires torch and the three extension submodules to
be importable; when one of them cannot be imported the whole package fails
with an error naming the failing module and no namespace is produced. -/
theorem c10_import_semantics (env : PyEnv) :
    (∀ l, runInit env = .ok l → l = boundNames ∧ ∀ m ∈ modsNeeded, m ∈ env.modules) ∧
    ((¬ ∀ m ∈ modsNeeded, m ∈ env.modules) →
      ∃ m, runInit env = .error (.importFailed m)) := by
  by_cases h1 : "torch" ∈ env.modules
  · by_cases h2 : ".bvh_search_tree" ∈ env.modules ∧
        ∀ n ∈ ["BVH", "BVHRayIntersection"], n ∈ env.exports ".bvh_search_tree"
    · by_cases h3 : ".tetra_sampler" ∈ env.modules ∧
          ∀ n ∈ ["Sampler"], n ∈ env.exports ".tetra_sampler"
      · by_cases h4 : ".mesh_distance" ∈ env.modules ∧
            ∀ n ∈ ["PointToMeshResidual"], n ∈ env.exports ".mesh_distance"
        · have hrun : runInit env = .ok boundNames := by
            simp only [runInit, initModule, runStmts, execStmt, if_pos h1, if_pos h2,
              if_pos h3, if_pos h4]
            rfl
          constructor
          · intro l hl
            rw [hrun] at hl
            injection hl with hl
            refine ⟨hl.symm, ?_⟩
            intro m hm
            rcases mem_modsNeeded hm with h | h | h | h <;> subst h
            · exact h1
            · exact h2.1
            · exact h3.1
            · exact h4.1
          · intro hc
            exfalso
            apply hc
            intro m hm
            rcases mem_modsNeeded hm with h | h | h | h <;> subst h
            · exact h1
            · exact h2.1
            · exact h3.1
            · exact h4.1
        · have hrun : runInit env = .error (.importFailed ".mesh_distance") := by
            simp only [runInit, initModule, runStmts, execStmt, if_pos h1, if_pos h2,
              if_pos h3, if_neg h4]
          exact ⟨fun l hl => absurd (hrun ▸ hl) (by simp),
            fun _ => ⟨".mesh_distance", hrun⟩⟩
      · have hrun : runInit env = .error (.importFailed ".tetra_sampler") := by
          simp only [runInit, initModule, runStmts, execStmt, if_pos h1, if_pos h2,
            if_neg h3]
        exact ⟨fun l hl => absurd (hrun ▸ hl) (by simp),
          fun _ => ⟨".tetra_sampler", hrun⟩⟩
    · have hrun : runInit env = .error (.importFailed ".bvh_search_tree") := by
        simp only [runInit, initModule, runStmts, execStmt, if_pos h1, if_neg h2]
      exact ⟨fun l hl => absurd (hrun ▸ hl) (by simp),
        fun _ => ⟨".bvh_search_tree", hrun⟩⟩
  · have hrun : runInit env = .error (.importFailed "torch") := by
      simp only [runInit, initModule, runStmts, execStmt, if_neg h1]
    exact ⟨fun l hl => absurd (hrun ▸ hl) (by simp),
      fun _ => ⟨"torch", hrun⟩⟩

/-- Witness for claim C10: under a complete environment the import binds the
five names, and under an empty environment the import fails with an error. -/
theorem c10_import_semantics_witness :
    (boundNames = boundNames ∧ ∀ m ∈ modsNeeded, m ∈ cEnv.modules) ∧
      (∃ m, runInit badEnv = .error (.importFailed m)) :=
  ⟨(c10_import_semantics cEnv).1 boundNames (by rfl),
    (c10_import_semantics badEnv).2 (by decide)⟩
